import Mathlib

/-!
Shallow embedding of the secure-password-manager core (`src/lib/crypto.ts`):
character-set tables, the unbiased random-integer primitive, the Fisher-Yates
shuffle, the constrained password generator, and the entropy-based strength
analyzer.  JS strings are modelled as `List Char`, JS numbers holding integers
as `Int`/`Nat`, and the cryptographically secure random source as an abstract
stream of values.
-/

namespace Crypto

/-- `PasswordConfig` from the source; the optional advanced flags default to
`false` in JS truthiness, so they are modelled as plain `Bool`. -/
structure PasswordConfig where
  length : Int
  uppercase : Bool
  lowercase : Bool
  numbers : Bool
  symbols : Bool
  avoidAmbiguous : Bool
  requireAllTypes : Bool
  noConsecutiveRepeat : Bool
  noSequential : Bool

/-- `CHARACTER_SETS.uppercase`. -/
def CHARACTER_SETS_uppercase : List Char := "ABCDEFGHIJKLMNOPQRSTUVWXYZ".toList

/-- `CHARACTER_SETS.lowercase`. -/
def CHARACTER_SETS_lowercase : List Char := "abcdefghijklmnopqrstuvwxyz".toList

/-- `CHARACTER_SETS.numbers`. -/
def CHARACTER_SETS_numbers : List Char := "0123456789".toList

/-- `CHARACTER_SETS.symbols` (the braces are written with escape codes). -/
def CHARACTER_SETS_symbols : List Char := "!@#$%^&*()_+-=[]\x7b\x7d|;:,.<>?".toList

/-- `AMBIGUOUS_CHARS`. -/
def AMBIGUOUS_CHARS : List Char := ['I', 'l', '1', 'O', '0', 'o']

/-- `filterAmbiguous`: keeps the characters not in `AMBIGUOUS_CHARS`. -/
def filterAmbiguous (input : List Char) : List Char :=
  input.filter (fun ch => !AMBIGUOUS_CHARS.contains ch)

/-- One entry of the list built by `buildEnabledSets`: a class key and its
effective characters. -/
structure CharSet where
  key : String
  chars : List Char
deriving DecidableEq

/-- `buildEnabledSets`: pushes the enabled classes in fixed order, filtering
uppercase/lowercase/numbers (but never symbols) when `avoidAmbiguous` is set,
then drops any class whose character list became empty. -/
def buildEnabledSets (config : PasswordConfig) : List CharSet :=
  let useAmbiguityFilter := config.avoidAmbiguous
  let sets : List CharSet :=
    (if config.uppercase then
      [⟨"uppercase", if useAmbiguityFilter then filterAmbiguous CHARACTER_SETS_uppercase else CHARACTER_SETS_uppercase⟩] else []) ++
    (if config.lowercase then
      [⟨"lowercase", if useAmbiguityFilter then filterAmbiguous CHARACTER_SETS_lowercase else CHARACTER_SETS_lowercase⟩] else []) ++
    (if config.numbers then
      [⟨"numbers", if useAmbiguityFilter then filterAmbiguous CHARACTER_SETS_numbers else CHARACTER_SETS_numbers⟩] else []) ++
    (if config.symbols then [⟨"symbols", CHARACTER_SETS_symbols⟩] else [])
  sets.filter (fun s => decide (0 < s.chars.length))

/-- The rejection threshold of `secureRandomInt`: the largest multiple of `n`
not exceeding `2^32` (`Math.floor((0xffffffff + 1) / n) * n`; exact for the
`n` in range because the double division cannot round across an integer). -/
def limitFor (n : Nat) : Nat := (2 ^ 32 / n) * n

/-- The rejection loop of `secureRandomInt` over an explicit list of raw
32-bit draws: the first draw below the limit is accepted and reduced mod `n`;
`none` means the supplied draws were all rejected (the JS loop would keep
drawing). -/
def secureRandomIntAux (n : Nat) : List Nat → Option Nat
  | [] => none
  | v :: rest => if v < limitFor n then some (v % n) else secureRandomIntAux n rest

/-- `secureRandomInt` over an explicit list of raw draws from
`crypto.getRandomValues`: returns `0` immediately for `maxExclusive ≤ 0`,
otherwise runs the rejection loop. -/
def secureRandomInt (maxExclusive : Int) (draws : List Nat) : Option Int :=
  if maxExclusive ≤ 0 then some 0
  else (secureRandomIntAux maxExclusive.toNat draws).map Int.ofNat

/-- Abstraction of one `secureRandomInt(n)` call inside the generator: `g`
enumerates the accepted raw draws of the random source (call number `idx`),
and the accepted draw is reduced mod `n`; for `n = 0` the call returns `0`
like `secureRandomInt` does for a non-positive bound.  Every function
`ℕ → ℕ` arises from some raw random sequence, since a raw draw `v < n` is
always accepted and returned unchanged. -/
def randNat (g : Nat → Nat) (idx n : Nat) : Nat :=
  if n = 0 then 0 else g idx % n

/-- `isSequential`: three char codes in ascending or descending unit steps
(char codes modelled as integers, as in JS arithmetic). -/
def isSequential (a b c : Char) : Bool :=
  let ca : Int := a.toNat
  let cb : Int := b.toNat
  let cc : Int := c.toNat
  (cb == ca + 1 && cc == cb + 1) || (cb == ca - 1 && cc == cb - 1)

/-- The `requireAllTypes` seeding loop of `generateSecurePassword`: one
uniformly chosen character from each enabled class, in class order, consuming
one random call per class starting at call `idx`. -/
def seedChars (g : Nat → Nat) : Nat → List CharSet → List Char
  | _, [] => []
  | idx, s :: rest => s.chars.getD (randNat g idx s.chars.length) 'a' :: seedChars g (idx + 1) rest

/-- The `noSequential` test of the fill loop: with the accumulator kept in
reverse order (most recent character first), the two previous characters are
the first two entries. -/
def seqWithPrev (acc : List Char) (candidate : Char) : Bool :=
  match acc with
  | b :: a :: _ => isSequential a b candidate
  | _ => false

/-- The fill loop of `generateSecurePassword` (source lines 120-139).  The
accumulator is kept in reverse order (`result[result.length-1]` is the head).
Each iteration draws one random call; a rejected candidate increments the
shared `safety` counter and, once the counter exceeds 5000, the loop `break`s,
returning the accumulator as it stands.  The result pairs the final
accumulator with the index of the next unused random call.  `fuel` bounds the
recursion; the caller passes enough fuel that it never reaches `0` before the
loop exits on its own. -/
def fillFrom (combined : List Char) (noRepeat noSeq : Bool) (targetLength : Nat)
    (g : Nat → Nat) : Nat → List Char → Nat → Nat → List Char × Nat
  | 0, acc, idx, _ => (acc, idx)
  | fuel + 1, acc, idx, safety =>
    if acc.length < targetLength then
      let candidate := combined.getD (randNat g idx combined.length) 'a'
      if noRepeat && acc.head? == some candidate then
        if 5000 < safety + 1 then (acc, idx + 1)
        else fillFrom combined noRepeat noSeq targetLength g fuel acc (idx + 1) (safety + 1)
      else if noSeq && seqWithPrev acc candidate then
        if 5000 < safety + 1 then (acc, idx + 1)
        else fillFrom combined noRepeat noSeq targetLength g fuel acc (idx + 1) (safety + 1)
      else
        fillFrom combined noRepeat noSeq targetLength g fuel (candidate :: acc) (idx + 1) safety
    else (acc, idx)

/-- The destructuring swap `[arr[i], arr[j]] = [arr[j], arr[i]]`; both indices
are in bounds at every use inside the shuffle. -/
def swapList (l : List Char) (i j : Nat) : List Char :=
  match l.get? i, l.get? j with
  | some a, some b => (l.set i b).set j a
  | _, _ => l

/-- The Fisher-Yates loop of `secureShuffle`, from index `i` down to `1`,
drawing `secureRandomInt(i + 1)` (call number `idx`) for each swap. -/
def shuffleGo (g : Nat → Nat) : Nat → Nat → List Char → List Char
  | _, 0, l => l
  | idx, i + 1, l => shuffleGo g (idx + 1) i (swapList l (i + 1) (randNat g idx (i + 2)))

/-- `secureShuffle`: Fisher-Yates from the last index down to `1`, with `idx`
the number of the first random call it may use. -/
def secureShuffle (g : Nat → Nat) (idx : Nat) (arr : List Char) : List Char :=
  shuffleGo g idx (arr.length - 1) arr

/-- `generateSecurePassword` up to the end of the fill loop (source lines
95-139): enabled sets, combined alphabet with lowercase fallback, optional
`requireAllTypes` seeding, then the constrained fill.  Returns the accumulator
(in reverse order) together with the index of the next random call. -/
def generateCore (config : PasswordConfig) (g : Nat → Nat) : List Char × Nat :=
  let sets := buildEnabledSets config
  let combined0 := (sets.map fun s => s.chars).flatten
  let combined := if combined0.length = 0 then CHARACTER_SETS_lowercase else combined0
  let requireAll := config.requireAllTypes && !sets.isEmpty
  let seeds := if requireAll then seedChars g 0 sets else []
  let seedIdx := if requireAll then sets.length else 0
  let targetLength := (max 0 config.length).toNat
  fillFrom combined config.noConsecutiveRepeat config.noSequential targetLength g
    (targetLength + 5001) seeds.reverse seedIdx 0

/-- The generated password as assembled just before the final shuffle (the
`result` array of the source after the fill loop, in order). -/
def generateBeforeShuffle (config : PasswordConfig) (g : Nat → Nat) : List Char :=
  (generateCore config g).1.reverse

/-- `generateSecurePassword`: the filled array, shuffled in full and truncated
to the target length (`.slice(0, targetLength)`). -/
def generateSecurePassword (config : PasswordConfig) (g : Nat → Nat) : List Char :=
  let filled := generateCore config g
  let targetLength := (max 0 config.length).toNat
  (secureShuffle g filled.2 filled.1.reverse).take targetLength

/-- `calculateEntropy`: per-character Shannon entropy of the frequency
distribution, scaled by the password length; `Math.log2` is modelled by the
exact real base-2 logarithm.  The frequency map's keys are the distinct
characters of the password, each with its occurrence count. -/
noncomputable def calculateEntropy (password : List Char) : Real :=
  if password = [] then 0
  else
    let length : Real := password.length
    let entropy : Real :=
      -∑ c in password.toFinset,
        ((password.count c : Real) / length) * Real.logb 2 ((password.count c : Real) / length)
    entropy * password.length

/-- `Math.round` on the nonnegative values used here: floor of `x + 1/2`. -/
noncomputable def jsRound (x : Real) : Int := ⌊x + 1 / 2⌋

/-- `EntropyResult` from the source. -/
structure EntropyResult where
  bits : Real
  score : Nat
  label : String
  color : String

/-- The composite 0-10 score of `analyzePasswordStrength` (source lines
183-199): four length checkpoints, four character-diversity regex tests, two
entropy thresholds, each contributing one point. -/
noncomputable def scoreOf (password : List Char) : Nat :=
  let entropy := calculateEntropy password
  let length := password.length
  (if 8 ≤ length then 1 else 0) + (if 12 ≤ length then 1 else 0) +
  (if 16 ≤ length then 1 else 0) + (if 20 ≤ length then 1 else 0) +
  (if password.any (fun c => 'a' ≤ c && c ≤ 'z') then 1 else 0) +
  (if password.any (fun c => 'A' ≤ c && c ≤ 'Z') then 1 else 0) +
  (if password.any (fun c => '0' ≤ c && c ≤ '9') then 1 else 0) +
  (if password.any (fun c =>
      !(('a' ≤ c && c ≤ 'z') || ('A' ≤ c && c ≤ 'Z') || ('0' ≤ c && c ≤ '9'))) then 1 else 0) +
  (if (50 : Real) ≤ entropy then 1 else 0) +
  (if (80 : Real) ≤ entropy then 1 else 0)

/-- The label/color ladder of `analyzePasswordStrength` (source lines
205-220). -/
def labelColorOf (score : Nat) : String × String :=
  if score ≤ 3 then ("Weak", "bg-red-500")
  else if score ≤ 5 then ("Fair", "bg-orange-500")
  else if score ≤ 7 then ("Good", "bg-yellow-500")
  else if score ≤ 9 then ("Strong", "bg-green-500")
  else ("Excellent", "bg-emerald-500")

/-- `analyzePasswordStrength`: entropy, composite score, label and color,
with `bits` rounded to one decimal place. -/
noncomputable def analyzePasswordStrength (password : List Char) : EntropyResult :=
  let entropy := calculateEntropy password
  let score := scoreOf password
  let lc := labelColorOf score
  ⟨(jsRound (entropy * 10) : Real) / 10, score, lc.1, lc.2⟩

/-- The label threshold table as the spec states it (section 4.4), a pure
step function of the score alone; written from the spec's words to be
compared with the label the analyzer computes. -/
def specLabelOfScore (score : Nat) : String :=
  if score ≤ 3 then "Weak"
  else if score ≤ 5 then "Fair"
  else if score ≤ 7 then "Good"
  else if score ≤ 9 then "Strong"
  else "Excellent"

/-- Config used to falsify C1: length 8 (within the validated 8-64 bounds),
lowercase enabled, `noConsecutiveRepeat` set. -/
def cfgC1 : PasswordConfig := ⟨8, false, true, false, false, false, false, true, false⟩

/-- Config used to falsify C3: length 9, numbers enabled,
`noConsecutiveRepeat` set. -/
def cfgC3 : PasswordConfig := ⟨9, false, false, true, false, false, false, true, false⟩

/-- Config used to falsify C2: length 3, lowercase enabled,
`noConsecutiveRepeat` set. -/
def cfgC2 : PasswordConfig := ⟨3, false, true, false, false, false, false, true, false⟩

/-- Random stream used to falsify C2: the fill loop accepts `a`, `b`, `a`,
then the shuffle swaps the trailing `a` next to the leading one. -/
def gC2 : Nat → Nat := fun n => if n = 1 then 1 else if n = 3 then 1 else 0

end Crypto

namespace Crypto

/-- One accepted iteration of the fill loop: when neither constraint rejects
the candidate, it is pushed and the loop continues. -/
theorem fillFrom_push (combined : List Char) (nr ns : Bool) (target : Nat) (g : Nat → Nat)
    (fuel : Nat) (acc : List Char) (idx safety : Nat)
    (hlen : acc.length < target)
    (h1 : (nr && acc.head? == some (combined.getD (randNat g idx combined.length) 'a')) = false)
    (h2 : (ns && seqWithPrev acc (combined.getD (randNat g idx combined.length) 'a')) = false) :
    fillFrom combined nr ns target g (fuel + 1) acc idx safety
      = fillFrom combined nr ns target g fuel
          (combined.getD (randNat g idx combined.length) 'a' :: acc) (idx + 1) safety := by
  simp only [fillFrom, hlen, if_true, h1, h2, Bool.false_eq_true, if_false, if_pos]

/-- If every candidate the stream produces equals the character on top of the
accumulator, a fill loop with `noConsecutiveRepeat` set rejects forever:
after the remaining budget of `5001 - safety` rejections the `break` fires and
the loop returns the accumulator unchanged. -/
theorem fillFrom_reject_stuck (combined : List Char) (b : Bool) (target : Nat)
    (g : Nat → Nat) (c : Char) (rest : List Char)
    (hc : ∀ j, combined.getD (randNat g j combined.length) 'a' = c)
    (hlen : (c :: rest).length < target) :
    ∀ fuel safety idx, safety ≤ 5000 → 5001 - safety ≤ fuel →
      fillFrom combined true b target g fuel (c :: rest) idx safety
        = (c :: rest, idx + (5001 - safety)) := by
  intro fuel
  induction fuel with
  | zero => intro safety idx h1 h2; omega
  | succ fuel ih =>
    intro safety idx h1 h2
    have hcand := hc idx
    have hrej : ((c :: rest).head? == some (combined.getD (randNat g idx combined.length) 'a'))
        = true := by
      rw [hcand]; simp
    by_cases hcap : safety = 5000
    · subst hcap
      simp only [fillFrom, hlen, if_true, hrej, Bool.true_and, if_pos]
      norm_num
    · have hlt : safety < 5000 := by omega
      have hstep : fillFrom combined true b target g (fuel + 1) (c :: rest) idx safety
          = fillFrom combined true b target g fuel (c :: rest) (idx + 1) (safety + 1) := by
        simp only [fillFrom, hlen, if_true, hrej, Bool.true_and, if_pos]
        rw [if_neg (by omega)]
      rw [hstep, ih (safety + 1) (idx + 1) (by omega) (by omega)]
      refine congrArg (Prod.mk _) ?_
      omega

/-- The fill loop never grows the accumulator beyond the target length. -/
theorem fillFrom_fst_length_le (combined : List Char) (nr ns : Bool) (target : Nat)
    (g : Nat → Nat) :
    ∀ fuel acc idx safety, acc.length ≤ target →
      ((fillFrom combined nr ns target g fuel acc idx safety).1).length ≤ target := by
  intro fuel
  induction fuel with
  | zero => intro acc idx safety h; exact h
  | succ fuel ih =>
    intro acc idx safety h
    by_cases hlt : acc.length < target
    · simp only [fillFrom, hlt, if_true]
      split
      · split
        · exact h
        · exact ih acc (idx + 1) (safety + 1) h
      · split
        · split
          · exact h
          · exact ih acc (idx + 1) (safety + 1) h
        · exact ih _ (idx + 1) safety (by simpa using hlt)
    · simp only [fillFrom, hlt, if_false]
      exact h

/-- With neither structural constraint enabled, every iteration of the fill
loop accepts, so with enough fuel the accumulator reaches the target length
exactly. -/
theorem fillFrom_no_constraints_length (combined : List Char) (target : Nat)
    (g : Nat → Nat) :
    ∀ fuel acc idx safety, acc.length ≤ target → target ≤ acc.length + fuel →
      ((fillFrom combined false false target g fuel acc idx safety).1).length = target := by
  intro fuel
  induction fuel with
  | zero => intro acc idx safety h1 h2; simp only [fillFrom]; omega
  | succ fuel ih =>
    intro acc idx safety h1 h2
    by_cases hlt : acc.length < target
    · simp only [fillFrom, hlt, if_true, Bool.false_and, Bool.false_eq_true, if_false]
      exact ih _ (idx + 1) safety (by simpa using hlt) (by simp; omega)
    · simp only [fillFrom, hlt, if_false]
      omega

/-- At most four classes can be enabled. -/
theorem buildEnabledSets_length_le (config : PasswordConfig) :
    (buildEnabledSets config).length ≤ 4 := by
  simp only [buildEnabledSets]
  refine le_trans (List.length_filter_le _ _) ?_
  simp only [List.length_append]
  repeat' split
  all_goals simp

/-- Seeding consumes exactly one character per enabled class. -/
theorem seedChars_length (g : Nat → Nat) :
    ∀ sets idx, (seedChars g idx sets).length = sets.length := by
  intro sets
  induction sets with
  | nil => intro idx; rfl
  | cons s rest ih => intro idx; simp [seedChars, ih (idx + 1)]

/-- Swapping two positions preserves the length. -/
theorem swapList_length (l : List Char) (i j : Nat) :
    (swapList l i j).length = l.length := by
  unfold swapList
  split <;> simp

/-- The Fisher-Yates loop preserves the length. -/
theorem shuffleGo_length (g : Nat → Nat) :
    ∀ i idx l, (shuffleGo g idx i l).length = l.length := by
  intro i
  induction i with
  | zero => intro idx l; rfl
  | succ i ih => intro idx l; rw [shuffleGo, ih, swapList_length]

/-- `secureShuffle` preserves the length. -/
theorem secureShuffle_length (g : Nat → Nat) (idx : Nat) (l : List Char) :
    (secureShuffle g idx l).length = l.length := by
  unfold secureShuffle
  exact shuffleGo_length g _ idx l

/-- The length of the final password is the filled length capped at the
target length. -/
theorem generateSecurePassword_length (config : PasswordConfig) (g : Nat → Nat) :
    (generateSecurePassword config g).length
      = min (generateCore config g).1.length (max 0 config.length).toNat := by
  simp only [generateSecurePassword]
  rw [List.length_take, secureShuffle_length, List.length_reverse, Nat.min_comm]

/-- Without the structural constraints the fill loop runs to the target
length exactly. -/
theorem generateCore_length_no_constraints (config : PasswordConfig) (g : Nat → Nat)
    (hnr : config.noConsecutiveRepeat = false) (hns : config.noSequential = false)
    (h4 : 4 ≤ (max 0 config.length).toNat) :
    (generateCore config g).1.length = (max 0 config.length).toNat := by
  simp only [generateCore, hnr, hns]
  apply fillFrom_no_constraints_length
  · rw [List.length_reverse]
    split
    · rw [seedChars_length]
      exact le_trans (buildEnabledSets_length_le config) h4
    · simp
  · omega

/-- C1 (counterexample): `cfgC1` is a valid configuration (length 8 within
the validated 8-64 bounds, lowercase enabled), yet with the random source
that always returns its first 32-bit value equal to 0 the rejection cap of
the `noConsecutiveRepeat` loop breaks generation after one accepted
character, so the output has length 1, not 8. -/
theorem c1_length_counterexample :
    (8 : Int) ≤ cfgC1.length ∧ cfgC1.length ≤ 64 ∧ cfgC1.lowercase = true ∧
    generateSecurePassword cfgC1 (fun _ => 0) = ['a'] ∧
    (generateSecurePassword cfgC1 (fun _ => 0)).length ≠ 8 := by
  have hc : ∀ j, CHARACTER_SETS_lowercase.getD
      (randNat (fun _ => 0) j CHARACTER_SETS_lowercase.length) 'a' = 'a' := fun j => rfl
  have h1 : generateCore cfgC1 (fun _ => 0)
      = fillFrom CHARACTER_SETS_lowercase true false 8 (fun _ => 0) 5009 [] 0 0 := rfl
  have h2 : fillFrom CHARACTER_SETS_lowercase true false 8 (fun _ => 0) 5009 [] 0 0
      = fillFrom CHARACTER_SETS_lowercase true false 8 (fun _ => 0) 5008 ['a'] 1 0 :=
    fillFrom_push CHARACTER_SETS_lowercase true false 8 (fun _ => 0) 5008 [] 0 0
      (by decide) (by decide) (by decide)
  have h3 : fillFrom CHARACTER_SETS_lowercase true false 8 (fun _ => 0) 5008 ['a'] 1 0
      = (['a'], 5002) :=
    fillFrom_reject_stuck CHARACTER_SETS_lowercase false 8 (fun _ => 0) 'a' [] hc
      (by decide) 5008 0 1 (by omega) (by omega)
  have hcore : generateCore cfgC1 (fun _ => 0) = (['a'], 5002) := (h1.trans h2).trans h3
  have hgen : generateSecurePassword cfgC1 (fun _ => 0)
      = (secureShuffle (fun _ => 0) (generateCore cfgC1 (fun _ => 0)).2
          (generateCore cfgC1 (fun _ => 0)).1.reverse).take 8 := rfl
  rw [hcore] at hgen
  refine ⟨by decide, by decide, by decide, ?_, ?_⟩ <;> rw [hgen] <;> decide

/-- C1 (amended): for valid configurations (length within the validated 8-64
bounds, at least one class enabled) in which neither `noConsecutiveRepeat`
nor `noSequential` is set, the rejection cap can never fire, and the
generated password has length exactly `config.length`, for every random
stream. -/
theorem generateSecurePassword_length_exact (config : PasswordConfig) (g : Nat → Nat)
    (h8 : 8 ≤ config.length) (h64 : config.length ≤ 64)
    (_hclass : config.uppercase = true ∨ config.lowercase = true ∨
      config.numbers = true ∨ config.symbols = true)
    (hnr : config.noConsecutiveRepeat = false) (hns : config.noSequential = false) :
    ((generateSecurePassword config g).length : Int) = config.length := by
  have h4 : 4 ≤ (max 0 config.length).toNat := by omega
  rw [generateSecurePassword_length,
    generateCore_length_no_constraints config g hnr hns h4, min_self]
  omega

/-- Witness for C1 (amended) at a concrete configuration and stream. -/
theorem generateSecurePassword_length_exact_witness :
    ((generateSecurePassword ⟨8, false, true, false, false, false, false, false, false⟩
      (fun n => n)).length : Int) = 8 :=
  generateSecurePassword_length_exact
    ⟨8, false, true, false, false, false, false, false, false⟩ (fun n => n)
    (by decide) (by decide) (Or.inr (Or.inl rfl)) rfl rfl

/-- C3 (amended): the rejection counter is shared across all slots of one
generation.  While it is below 5000, a rejected candidate consumes the draw
and the loop retries the same slot; as soon as it exceeds 5000, the loop
terminates immediately, returning the accumulator with the pending slot left
unfilled (the password may thus come out shorter than requested) — the slot
is not accepted as-is. -/
theorem fillFrom_cap_terminates (combined : List Char) (b : Bool) (target : Nat)
    (g : Nat → Nat) (fuel idx safety : Nat) (acc : List Char)
    (hlen : acc.length < target)
    (hrej : (acc.head? == some (combined.getD (randNat g idx combined.length) 'a')) = true) :
    (safety = 5000 →
      fillFrom combined true b target g (fuel + 1) acc idx safety = (acc, idx + 1)) ∧
    (safety < 5000 →
      fillFrom combined true b target g (fuel + 1) acc idx safety
        = fillFrom combined true b target g fuel acc (idx + 1) (safety + 1)) := by
  constructor
  · intro hs
    subst hs
    simp only [fillFrom, hlen, if_true, hrej, Bool.true_and, if_pos]
    norm_num
  · intro hs
    simp only [fillFrom, hlen, if_true, hrej, Bool.true_and, if_pos]
    rw [if_neg (by omega)]

/-- Witness for C3 (amended): at the cap the loop returns the accumulator
unchanged; just below the cap it retries. -/
theorem fillFrom_cap_terminates_witness :
    fillFrom ['a'] true false 2 (fun _ => 0) 7 ['a'] 3 5000 = (['a'], 4) ∧
    fillFrom ['a'] true false 2 (fun _ => 0) 7 ['a'] 3 4999
      = fillFrom ['a'] true false 2 (fun _ => 0) 6 ['a'] 4 5000 :=
  ⟨(fillFrom_cap_terminates ['a'] false 2 (fun _ => 0) 6 3 5000 ['a']
      (by decide) (by decide)).1 rfl,
   (fillFrom_cap_terminates ['a'] false 2 (fun _ => 0) 6 3 4999 ['a']
      (by decide) (by decide)).2 (by omega)⟩

/-- C3 (counterexample): the claim says that when the cap is hit the slot is
accepted as-is and generation continues up to the requested length; in the
code the `break` ends the whole loop, so with an adversarial stream `cfgC3`
(length 9, numbers only, `noConsecutiveRepeat`) yields a single character. -/
theorem c3_continue_counterexample :
    generateSecurePassword cfgC3 (fun _ => 0) = ['0'] ∧
    (generateSecurePassword cfgC3 (fun _ => 0)).length ≠ cfgC3.length.toNat := by
  have hc : ∀ j, CHARACTER_SETS_numbers.getD
      (randNat (fun _ => 0) j CHARACTER_SETS_numbers.length) 'a' = '0' := fun j => rfl
  have h1 : generateCore cfgC3 (fun _ => 0)
      = fillFrom CHARACTER_SETS_numbers true false 9 (fun _ => 0) 5010 [] 0 0 := rfl
  have h2 : fillFrom CHARACTER_SETS_numbers true false 9 (fun _ => 0) 5010 [] 0 0
      = fillFrom CHARACTER_SETS_numbers true false 9 (fun _ => 0) 5009 ['0'] 1 0 :=
    fillFrom_push CHARACTER_SETS_numbers true false 9 (fun _ => 0) 5009 [] 0 0
      (by decide) (by decide) (by decide)
  have h3 : fillFrom CHARACTER_SETS_numbers true false 9 (fun _ => 0) 5009 ['0'] 1 0
      = (['0'], 5002) :=
    fillFrom_reject_stuck CHARACTER_SETS_numbers false 9 (fun _ => 0) '0' [] hc
      (by decide) 5009 0 1 (by omega) (by omega)
  have hcore : generateCore cfgC3 (fun _ => 0) = (['0'], 5002) := (h1.trans h2).trans h3
  have hgen : generateSecurePassword cfgC3 (fun _ => 0)
      = (secureShuffle (fun _ => 0) (generateCore cfgC3 (fun _ => 0)).2
          (generateCore cfgC3 (fun _ => 0)).1.reverse).take 9 := rfl
  rw [hcore] at hgen
  refine ⟨?_, ?_⟩ <;> rw [hgen] <;> decide

/-- C10: a non-positive requested length is clamped to 0 and the final
truncation returns the empty password, for every configuration and stream. -/
theorem generateSecurePassword_nonpos_length (config : PasswordConfig) (g : Nat → Nat)
    (h : config.length ≤ 0) : generateSecurePassword config g = [] := by
  have h0 : (max 0 config.length).toNat = 0 := by omega
  simp only [generateSecurePassword, h0, List.take_zero]

/-- Witness for C10 at a negative length with every option enabled. -/
theorem generateSecurePassword_nonpos_length_witness :
    generateSecurePassword ⟨-5, true, true, true, true, true, true, true, true⟩
      (fun n => n + 7) = [] :=
  generateSecurePassword_nonpos_length
    ⟨-5, true, true, true, true, true, true, true, true⟩ (fun n => n + 7) (by decide)

/-- C4 (counterexample): the symbols class does not have 25 characters. -/
theorem symbols_not_25 : CHARACTER_SETS_symbols.length ≠ 25 := by decide

/-- C4 (amended): the symbols class is a fixed 26-character punctuation set
(not 25 as the spec counts it), and the ambiguity filter never touches it:
every symbols entry produced by `buildEnabledSets` carries exactly
`CHARACTER_SETS.symbols`, whatever `avoidAmbiguous` is. -/
theorem symbols_26_and_unfiltered :
    CHARACTER_SETS_symbols.length = 26 ∧
    ∀ (config : PasswordConfig), ∀ s ∈ buildEnabledSets config,
      s.key = "symbols" → s.chars = CHARACTER_SETS_symbols := by
  refine ⟨by decide, ?_⟩
  intro config s hs hkey
  simp only [buildEnabledSets, List.mem_filter, List.mem_append] at hs
  obtain ⟨hmem, -⟩ := hs
  rcases hmem with ((h | h) | h) | h <;> (split at h <;> simp_all)

/-- Witness for C4 (amended): with every class enabled and `avoidAmbiguous`
set, the symbols entry still holds the unfiltered symbols characters. -/
theorem symbols_26_and_unfiltered_witness :
    (⟨"symbols", CHARACTER_SETS_symbols⟩ : CharSet).chars = CHARACTER_SETS_symbols :=
  symbols_26_and_unfiltered.2 ⟨16, true, true, true, true, true, true, false, false⟩
    ⟨"symbols", CHARACTER_SETS_symbols⟩ (by decide) rfl

/-- The rejection loop returns the first draw strictly below the limit,
reduced mod `n`. -/
theorem secureRandomIntAux_eq (m : Nat) :
    ∀ draws : List Nat,
      secureRandomIntAux m draws
        = ((draws.dropWhile fun v => decide (limitFor m ≤ v)).head?).map fun v => v % m := by
  intro draws
  induction draws with
  | nil => rfl
  | cons v rest ih =>
    by_cases h : v < limitFor m
    · simp [secureRandomIntAux, h, List.dropWhile_cons, Nat.not_le.mpr h]
    · simp [secureRandomIntAux, h, List.dropWhile_cons, Nat.le_of_not_lt h, ih]

/-- C6: `secureRandomInt(n)` returns `0` for `n ≤ 0`; for `n ≥ 1` it rejects
every 32-bit draw at or above the largest multiple of `n` not exceeding
`2^32` and returns the first accepted draw reduced mod `n`, a value in
`[0, n)`. -/
theorem secureRandomInt_spec (n : Int) (draws : List Nat) :
    (n ≤ 0 → secureRandomInt n draws = some 0) ∧
    (1 ≤ n →
      (secureRandomInt n draws
        = ((draws.dropWhile fun v => decide (limitFor n.toNat ≤ v)).head?).map
            (fun v => Int.ofNat (v % n.toNat))) ∧
      ∀ r, secureRandomInt n draws = some r → 0 ≤ r ∧ r < n) := by
  constructor
  · intro h
    simp [secureRandomInt, h]
  · intro h
    have hn0 : ¬ n ≤ 0 := by omega
    have hm : 0 < n.toNat := by omega
    constructor
    · simp only [secureRandomInt, hn0, if_false, secureRandomIntAux_eq]
      cases (draws.dropWhile fun v => decide (limitFor n.toNat ≤ v)).head? <;> simp
    · intro r hr
      simp only [secureRandomInt, hn0, if_false, secureRandomIntAux_eq] at hr
      cases hh : (draws.dropWhile fun v => decide (limitFor n.toNat ≤ v)).head? with
      | none => rw [hh] at hr; simp at hr
      | some v =>
        rw [hh] at hr
        have hr2 : Int.ofNat (v % n.toNat) = r := by simpa using hr
        have hlt : v % n.toNat < n.toNat := Nat.mod_lt v hm
        subst hr2
        have h3 : ((v % n.toNat : Nat) : Int) < ((n.toNat : Nat) : Int) := by
          exact_mod_cast hlt
        have h4 : ((n.toNat : Int)) = n := Int.toNat_of_nonneg (by omega)
        exact ⟨Int.ofNat_nonneg _, by rw [← h4]; exact h3⟩

/-- Witness for C6: the degenerate case and a rejected-then-accepted run. -/
theorem secureRandomInt_spec_witness :
    secureRandomInt (-3) [5] = some 0 ∧
    secureRandomInt 5 [4294967295, 7] = some 2 := by
  constructor
  · exact (secureRandomInt_spec (-3) [5]).1 (by decide)
  · have h := ((secureRandomInt_spec 5 [4294967295, 7]).2 (by norm_num)).1
    rw [h]; decide

/-- A `getD` lookup lands in the list as soon as the default itself is in the
list. -/
theorem getD_mem_of_default_mem (l : List Char) (n : Nat) (d : Char) (hd : d ∈ l) :
    l.getD n d ∈ l := by
  rw [List.getD_eq_getElem?_getD]
  cases h : l[n]? with
  | none => simpa using hd
  | some a => simpa using List.getElem?_mem h

/-- Every character the fill loop adds comes from a `getD` lookup into the
combined alphabet. -/
theorem fillFrom_fst_mem (combined : List Char) (nr ns : Bool) (target : Nat)
    (g : Nat → Nat) :
    ∀ fuel acc idx safety x, x ∈ (fillFrom combined nr ns target g fuel acc idx safety).1 →
      x ∈ acc ∨ ∃ r, x = combined.getD r 'a' := by
  intro fuel
  induction fuel with
  | zero => intro acc idx safety x hx; exact Or.inl hx
  | succ fuel ih =>
    intro acc idx safety x hx
    by_cases hlt : acc.length < target
    · simp only [fillFrom, hlt, if_true] at hx
      split at hx
      · split at hx
        · exact Or.inl hx
        · exact ih acc (idx + 1) (safety + 1) x hx
      · split at hx
        · split at hx
          · exact Or.inl hx
          · exact ih acc (idx + 1) (safety + 1) x hx
        · rcases ih _ (idx + 1) safety x hx with hin | hr
          · rcases List.mem_cons.mp hin with hc | hc
            · exact Or.inr ⟨randNat g idx combined.length, hc⟩
            · exact Or.inl hc
          · exact Or.inr hr
    · simp only [fillFrom, hlt, if_false] at hx
      exact Or.inl hx

/-- Swapping never introduces characters. -/
theorem swapList_subset (l : List Char) (i j : Nat) :
    ∀ x ∈ swapList l i j, x ∈ l := by
  intro x hx
  unfold swapList at hx
  split at hx
  case _ a b ha hb =>
    rcases List.mem_or_eq_of_mem_set hx with hx2 | hx2
    · rcases List.mem_or_eq_of_mem_set hx2 with hx3 | hx3
      · exact hx3
      · exact hx3 ▸ List.get?_mem hb
    · exact hx2 ▸ List.get?_mem ha
  case _ => exact hx

/-- The shuffle never introduces characters. -/
theorem shuffleGo_subset (g : Nat → Nat) :
    ∀ i idx l x, x ∈ shuffleGo g idx i l → x ∈ l := by
  intro i
  induction i with
  | zero => intro idx l x hx; exact hx
  | succ i ih =>
    intro idx l x hx
    rw [shuffleGo] at hx
    exact swapList_subset _ _ _ x (ih (idx + 1) _ x hx)

/-- C9: when no character class is enabled, generation falls back to the
lowercase alphabet, and every character of the output is a lowercase letter,
for every random stream. -/
theorem generateSecurePassword_fallback_lowercase (config : PasswordConfig)
    (g : Nat → Nat)
    (hu : config.uppercase = false) (hl : config.lowercase = false)
    (hn : config.numbers = false) (hs : config.symbols = false) :
    ∀ x ∈ generateSecurePassword config g, x ∈ CHARACTER_SETS_lowercase := by
  have hsets : buildEnabledSets config = [] := by
    simp [buildEnabledSets, hu, hl, hn, hs]
  intro x hx
  simp only [generateSecurePassword, generateCore, secureShuffle, hsets] at hx
  have hx2 := List.take_subset _ _ hx
  have hx3 := shuffleGo_subset g _ _ _ x hx2
  rw [List.mem_reverse] at hx3
  have hx4 := fillFrom_fst_mem _ _ _ _ g _ _ _ _ x hx3
  simp only [List.not_mem_nil] at hx4
  rcases hx4 with hfalse | ⟨r, hr⟩
  · simp at hfalse
  · subst hr
    exact getD_mem_of_default_mem _ r 'a' (by decide)

/-- Witness for C9: with all classes disabled, a concrete character of the
concrete output is a lowercase letter. -/
theorem generateSecurePassword_fallback_lowercase_witness :
    'b' ∈ CHARACTER_SETS_lowercase :=
  generateSecurePassword_fallback_lowercase
    ⟨6, false, false, false, false, false, false, false, false⟩ (fun n => n)
    rfl rfl rfl rfl 'b' (by decide)

/-- The composite score is a sum of ten 0/1 indicators, so it is at most
10. -/
theorem scoreOf_le_ten (password : List Char) : scoreOf password ≤ 10 := by
  simp only [scoreOf]
  have h1 : (if 8 ≤ password.length then (1 : Nat) else 0) ≤ 1 := by split <;> omega
  have h2 : (if 12 ≤ password.length then (1 : Nat) else 0) ≤ 1 := by split <;> omega
  have h3 : (if 16 ≤ password.length then (1 : Nat) else 0) ≤ 1 := by split <;> omega
  have h4 : (if 20 ≤ password.length then (1 : Nat) else 0) ≤ 1 := by split <;> omega
  have h5 : (if password.any (fun c => 'a' ≤ c && c ≤ 'z') then (1 : Nat) else 0) ≤ 1 := by
    split <;> omega
  have h6 : (if password.any (fun c => 'A' ≤ c && c ≤ 'Z') then (1 : Nat) else 0) ≤ 1 := by
    split <;> omega
  have h7 : (if password.any (fun c => '0' ≤ c && c ≤ '9') then (1 : Nat) else 0) ≤ 1 := by
    split <;> omega
  have h8 : (if password.any (fun c =>
      !(('a' ≤ c && c ≤ 'z') || ('A' ≤ c && c ≤ 'Z') || ('0' ≤ c && c ≤ '9')))
      then (1 : Nat) else 0) ≤ 1 := by split <;> omega
  have h9 : (if (50 : Real) ≤ calculateEntropy password then (1 : Nat) else 0) ≤ 1 := by
    split <;> omega
  have h10 : (if (80 : Real) ≤ calculateEntropy password then (1 : Nat) else 0) ≤ 1 := by
    split <;> omega
  omega

/-- The label the analyzer computes agrees with the spec's threshold table at
every score. -/
theorem labelColorOf_fst_eq_spec (score : Nat) :
    (labelColorOf score).1 = specLabelOfScore score := by
  unfold labelColorOf specLabelOfScore
  split_ifs <;> rfl

/-- C7: for every password the analyzer returns a score in `[0, 10]` and a
label that is exactly the spec's step function of the score; in particular a
score of exactly 5 yields "Fair". -/
theorem analyzePasswordStrength_score_label (password : List Char) :
    (analyzePasswordStrength password).score ≤ 10 ∧
    (analyzePasswordStrength password).label
      = specLabelOfScore (analyzePasswordStrength password).score ∧
    specLabelOfScore 5 = "Fair" :=
  ⟨scoreOf_le_ten password, labelColorOf_fst_eq_spec (scoreOf password), rfl⟩

/-- C8: the analyzer on the empty string returns zero bits, a zero score and
the label "Weak", without any error path. -/
theorem analyzePasswordStrength_empty :
    (analyzePasswordStrength []).bits = 0 ∧
    (analyzePasswordStrength []).score = 0 ∧
    (analyzePasswordStrength []).label = "Weak" := by
  have hent : calculateEntropy [] = 0 := by simp [calculateEntropy]
  have hscore : scoreOf [] = 0 := by
    unfold scoreOf
    rw [hent]
    norm_num
  refine ⟨?_, hscore, ?_⟩
  · show ((jsRound (calculateEntropy [] * 10) : Real)) / 10 = 0
    rw [hent]
    have : jsRound (0 * 10) = 0 := by
      unfold jsRound
      rw [zero_mul, zero_add]
      exact Int.floor_eq_zero_iff.mpr ⟨by norm_num, by norm_num⟩
    rw [this]
    norm_num
  · show (labelColorOf (scoreOf [])).1 = "Weak"
    rw [hscore]
    rfl

/-- A random index into a nonempty list lands in the list. -/
theorem getD_randNat_mem (g : Nat → Nat) (idx : Nat) (l : List Char) (h : l ≠ []) :
    l.getD (randNat g idx l.length) 'a' ∈ l := by
  have hpos : 0 < l.length := List.length_pos.mpr h
  have hlt : randNat g idx l.length < l.length := by
    unfold randNat
    rw [if_neg (by omega)]
    exact Nat.mod_lt _ hpos
  rw [List.getD_eq_getElem?_getD, List.getElem?_eq_getElem hlt]
  exact List.getElem_mem hlt

/-- Enabled classes always carry a nonempty character list (the final
filter). -/
theorem mem_buildEnabledSets_chars_ne_nil {config : PasswordConfig} {s : CharSet}
    (hs : s ∈ buildEnabledSets config) : s.chars ≠ [] := by
  have hp := List.of_mem_filter hs
  intro hnil
  rw [hnil] at hp
  simp at hp

/-- Every enabled class receives one seed character drawn from its own
alphabet. -/
theorem seedChars_cover (g : Nat → Nat) :
    ∀ (sets : List CharSet) (idx : Nat) (s : CharSet), s ∈ sets → s.chars ≠ [] →
      ∃ c, c ∈ s.chars ∧ c ∈ seedChars g idx sets := by
  intro sets
  induction sets with
  | nil => intro idx s h; simp at h
  | cons t rest ih =>
    intro idx s hs hne
    rcases List.mem_cons.mp hs with h | h
    · subst h
      exact ⟨s.chars.getD (randNat g idx s.chars.length) 'a',
        getD_randNat_mem g idx s.chars hne, by rw [seedChars]; exact List.mem_cons_self _ _⟩
    · obtain ⟨c, h1, h2⟩ := ih (idx + 1) s h hne
      exact ⟨c, h1, by rw [seedChars]; exact List.mem_cons_of_mem _ h2⟩

/-- Swapping the head with the element at position `m` permutes the list. -/
theorem cons_set_perm (tl : List Char) :
    ∀ (m : Nat) (a b : Char), tl.get? m = some b → (b :: tl.set m a).Perm (a :: tl) := by
  induction tl with
  | nil => intro m a b h; cases m <;> simp at h
  | cons y r ih =>
    intro m a b h
    cases m with
    | zero =>
      simp only [List.get?_cons_zero, Option.some_inj] at h
      subst h
      exact List.Perm.swap a y r
    | succ m =>
      simp only [List.get?_cons_succ] at h
      exact (List.Perm.swap y b (r.set m a)).trans
        (((ih m a b h).cons y).trans (List.Perm.swap a y r))

/-- Writing `l[j]` at `i` and `l[i]` at `j` permutes the list. -/
theorem set_set_perm_of_get? :
    ∀ (l : List Char) (i j : Nat) (a b : Char),
      l.get? i = some a → l.get? j = some b → ((l.set i b).set j a).Perm l := by
  intro l
  induction l with
  | nil => intro i j a b ha; simp at ha
  | cons x tl ih =>
    intro i j a b ha hb
    cases i with
    | zero =>
      simp only [List.get?_cons_zero, Option.some_inj] at ha
      cases j with
      | zero =>
        simp only [List.get?_cons_zero, Option.some_inj] at hb
        subst ha; subst hb
        simp
      | succ j =>
        simp only [List.get?_cons_succ] at hb
        subst ha
        exact cons_set_perm tl j x b hb
    | succ i =>
      simp only [List.get?_cons_succ] at ha
      cases j with
      | zero =>
        simp only [List.get?_cons_zero, Option.some_inj] at hb
        subst hb
        exact cons_set_perm tl i x a ha
      | succ j =>
        simp only [List.get?_cons_succ] at hb
        exact (ih i j a b ha hb).cons x

/-- The destructuring swap permutes the list (and is the identity when an
index is out of bounds). -/
theorem swapList_perm (l : List Char) (i j : Nat) : (swapList l i j).Perm l := by
  unfold swapList
  split
  · rename_i a b ha hb
    exact set_set_perm_of_get? l i j a b ha hb
  · exact List.Perm.refl l

/-- The Fisher-Yates loop permutes its input. -/
theorem shuffleGo_perm (g : Nat → Nat) :
    ∀ (i idx : Nat) (l : List Char), (shuffleGo g idx i l).Perm l := by
  intro i
  induction i with
  | zero => intro idx l; exact List.Perm.refl l
  | succ i ih =>
    intro idx l
    exact (ih (idx + 1) _).trans (swapList_perm l (i + 1) (randNat g idx (i + 2)))

/-- The fill loop only ever prepends to the accumulator. -/
theorem fillFrom_fst_append (combined : List Char) (nr ns : Bool) (target : Nat)
    (g : Nat → Nat) :
    ∀ fuel acc idx safety,
      ∃ ext, (fillFrom combined nr ns target g fuel acc idx safety).1 = ext ++ acc := by
  intro fuel
  induction fuel with
  | zero => intro acc idx safety; exact ⟨[], rfl⟩
  | succ fuel ih =>
    intro acc idx safety
    by_cases hlt : acc.length < target
    · simp only [fillFrom, hlt, if_true]
      split
      · split
        · exact ⟨[], rfl⟩
        · exact ih acc (idx + 1) (safety + 1)
      · split
        · split
          · exact ⟨[], rfl⟩
          · exact ih acc (idx + 1) (safety + 1)
        · obtain ⟨ext, hext⟩ := ih
            (combined.getD (randNat g idx combined.length) 'a' :: acc) (idx + 1) safety
          exact ⟨ext ++ [combined.getD (randNat g idx combined.length) 'a'],
            by rw [hext]; simp⟩
    · simp only [fillFrom, hlt, if_false]
      exact ⟨[], rfl⟩

/-- C5: if `requireAllTypes` is set and the requested length is at least the
number of enabled classes, the output contains at least one character from
each enabled class's filtered alphabet, for every random stream: the seeded
characters survive the fill, the shuffle (a permutation) and the final
truncation (which is a no-op because the filled length never exceeds the
target). -/
theorem generateSecurePassword_requireAll (config : PasswordConfig) (g : Nat → Nat)
    (hreq : config.requireAllTypes = true)
    (hlen : ((buildEnabledSets config).length : Int) ≤ config.length) :
    ∀ s ∈ buildEnabledSets config,
      ∃ c, c ∈ s.chars ∧ c ∈ generateSecurePassword config g := by
  intro s hs
  have hne : buildEnabledSets config ≠ [] := by
    intro h
    rw [h] at hs
    simp at hs
  have hra : (config.requireAllTypes && !(buildEnabledSets config).isEmpty) = true := by
    rw [hreq]
    simpa [List.isEmpty_iff] using hne
  have htarget : (buildEnabledSets config).length ≤ (max 0 config.length).toNat := by omega
  obtain ⟨c, hcs, hcseed⟩ :=
    seedChars_cover g (buildEnabledSets config) 0 s hs (mem_buildEnabledSets_chars_ne_nil hs)
  refine ⟨c, hcs, ?_⟩
  have hgen : generateSecurePassword config g
      = (secureShuffle g (generateCore config g).2
          (generateCore config g).1.reverse).take ((max 0 config.length).toNat) := rfl
  have hlenfill : (generateCore config g).1.length ≤ (max 0 config.length).toNat := by
    simp only [generateCore, hra, if_true]
    apply fillFrom_fst_length_le
    rw [List.length_reverse, seedChars_length]
    exact htarget
  have hmemfill : c ∈ (generateCore config g).1 := by
    have hseed : (if config.requireAllTypes && !(buildEnabledSets config).isEmpty
        then seedChars g 0 (buildEnabledSets config) else []) = seedChars g 0 (buildEnabledSets config) := by
      rw [hra, if_pos rfl]
    obtain ⟨ext, hext⟩ : ∃ ext, (generateCore config g).1
        = ext ++ (seedChars g 0 (buildEnabledSets config)).reverse := by
      simp only [generateCore, hra, if_true]
      exact fillFrom_fst_append _ _ _ _ g _ _ _ _
    rw [hext]
    exact List.mem_append_right ext (List.mem_reverse.mpr hcseed)
  rw [hgen, List.take_of_length_le
    (by rw [secureShuffle_length, List.length_reverse]; exact hlenfill)]
  unfold secureShuffle
  exact ((shuffleGo_perm g _ _ _).mem_iff).mpr (List.mem_reverse.mpr hmemfill)

/-- Witness for C5: uppercase and numbers enabled with `requireAllTypes`, at
a concrete stream; the uppercase class is represented in the output. -/
theorem generateSecurePassword_requireAll_witness :
    ∃ c, c ∈ (if true then filterAmbiguous CHARACTER_SETS_uppercase
        else CHARACTER_SETS_uppercase) ∧
      c ∈ generateSecurePassword ⟨4, true, false, true, false, true, true, false, false⟩
        (fun n => n) := by
  have h := generateSecurePassword_requireAll
    ⟨4, true, false, true, false, true, true, false, false⟩ (fun n => n) rfl (by decide)
    ⟨"uppercase", if true then filterAmbiguous CHARACTER_SETS_uppercase
      else CHARACTER_SETS_uppercase⟩ (by decide)
  exact h

/-- The enabled sets depend only on the five flags that the builder reads. -/
theorem buildEnabledSets_congr (c1 c2 : PasswordConfig)
    (hu : c1.uppercase = c2.uppercase) (hl : c1.lowercase = c2.lowercase)
    (hn : c1.numbers = c2.numbers) (hs : c1.symbols = c2.symbols)
    (hamb : c1.avoidAmbiguous = c2.avoidAmbiguous) :
    buildEnabledSets c1 = buildEnabledSets c2 := by
  unfold buildEnabledSets
  rw [hu, hl, hn, hs, hamb]

/-- Distinct enabled classes have disjoint character lists (the four base
alphabets are pairwise disjoint, and filtering only removes characters). -/
theorem buildEnabledSets_pairwise_disjoint (config : PasswordConfig) :
    (buildEnabledSets config).Pairwise
      (fun s t => ∀ a ∈ s.chars, ∀ b ∈ t.chars, a ≠ b) := by
  rcases config with ⟨len, u, l, n, sy, amb, req, nr, ns⟩
  rw [buildEnabledSets_congr ⟨len, u, l, n, sy, amb, req, nr, ns⟩
    ⟨0, u, l, n, sy, amb, false, false, false⟩ rfl rfl rfl rfl rfl]
  cases u <;> cases l <;> cases n <;> cases sy <;> cases amb <;> decide

/-- Seeds drawn from consecutive disjoint classes are pairwise distinct along
the list. -/
theorem seedChars_chain (g : Nat → Nat) :
    ∀ (sets : List CharSet) (idx : Nat),
      (∀ s ∈ sets, s.chars ≠ []) →
      sets.Chain' (fun s t => ∀ a ∈ s.chars, ∀ b ∈ t.chars, a ≠ b) →
      (seedChars g idx sets).Chain' (fun a b => a ≠ b) := by
  intro sets
  induction sets with
  | nil => intro idx _ _; rw [seedChars]; exact List.chain'_nil
  | cons t rest ih =>
    intro idx hne hchain
    rw [seedChars]
    refine List.chain'_cons'.mpr ⟨?_, ih (idx + 1) (fun s hs => hne s (List.mem_cons_of_mem t hs))
      hchain.tail⟩
    intro y hy
    cases rest with
    | nil => rw [seedChars] at hy; simp at hy
    | cons t2 rest2 =>
      rw [seedChars] at hy
      simp only [List.head?_cons, Option.mem_def, Option.some_inj] at hy
      subst hy
      have hd : ∀ a ∈ t.chars, ∀ b ∈ t2.chars, a ≠ b :=
        (List.chain'_cons.mp hchain).1
      exact hd _ (getD_randNat_mem g idx t.chars (hne t (List.mem_cons_self t _)))
        _ (getD_randNat_mem g (idx + 1) t2.chars (hne t2 (List.mem_cons_of_mem t (List.mem_cons_self t2 _))))

/-- With `noConsecutiveRepeat` enabled, the fill loop preserves the
no-adjacent-equal invariant of the accumulator: a candidate equal to the most
recent character is never pushed. -/
theorem fillFrom_chain (combined : List Char) (b : Bool) (target : Nat) (g : Nat → Nat) :
    ∀ fuel acc idx safety, acc.Chain' (fun x y => x ≠ y) →
      ((fillFrom combined true b target g fuel acc idx safety).1).Chain' (fun x y => x ≠ y) := by
  intro fuel
  induction fuel with
  | zero => intro acc idx safety h; exact h
  | succ fuel ih =>
    intro acc idx safety h
    by_cases hlt : acc.length < target
    · simp only [fillFrom, hlt, if_true]
      cases hcond : (true && acc.head? == some (combined.getD (randNat g idx combined.length) 'a')) with
      | true =>
        simp only [hcond, if_true]
        split
        · exact h
        · exact ih acc (idx + 1) (safety + 1) h
      | false =>
        simp only [hcond, Bool.false_eq_true, if_false]
        split
        · split
          · exact h
          · exact ih acc (idx + 1) (safety + 1) h
        · refine ih _ (idx + 1) safety (List.chain'_cons'.mpr ⟨?_, h⟩)
          intro y hy heq
          have h1 : acc.head? = some y := Option.mem_def.mp hy
          rw [heq, h1] at hcond
          simp at hcond
    · simp only [fillFrom, hlt, if_false]
      exact h

/-- C2 (amended): with `noConsecutiveRepeat` set, the password as assembled
by the fill loop — before the final shuffle — has no two equal adjacent
characters, for every configuration and random stream; the final shuffle can
move equal characters together (see the counterexample). -/
theorem generateBeforeShuffle_no_adjacent (config : PasswordConfig) (g : Nat → Nat)
    (h : config.noConsecutiveRepeat = true) :
    (generateBeforeShuffle config g).Chain' (fun a b => a ≠ b) := by
  unfold generateBeforeShuffle
  rw [List.chain'_reverse]
  refine List.Chain'.imp (R := fun a b => a ≠ b) (fun a b hab => hab.symm) ?_
  simp only [generateCore, h]
  apply fillFrom_chain
  rw [List.chain'_reverse]
  refine List.Chain'.imp (R := fun a b => a ≠ b) (fun a b hab => hab.symm) ?_
  split
  · exact seedChars_chain g _ 0 (fun s hs => mem_buildEnabledSets_chars_ne_nil hs)
      (buildEnabledSets_pairwise_disjoint config).chain'
  · exact List.chain'_nil

/-- Witness for C2 (amended) at a concrete configuration and stream. -/
theorem generateBeforeShuffle_no_adjacent_witness :
    (⟨4, false, true, false, false, false, false, true, false⟩ :
        PasswordConfig).noConsecutiveRepeat = true ∧
    (generateBeforeShuffle ⟨4, false, true, false, false, false, false, true, false⟩
      (fun n => n)).Chain' (fun a b => a ≠ b) :=
  ⟨rfl, generateBeforeShuffle_no_adjacent
    ⟨4, false, true, false, false, false, false, true, false⟩ (fun n => n) rfl⟩

/-- C2 (counterexample): `cfgC2` has `noConsecutiveRepeat` set, length 3 ≥ 2
and a 26-character alphabet, yet for the stream `gC2` the final shuffle
places two equal characters next to each other, so the claim fails on the
shuffled output. -/
theorem c2_shuffle_counterexample :
    cfgC2.noConsecutiveRepeat = true ∧ (2 : Int) ≤ cfgC2.length ∧
    2 ≤ (((buildEnabledSets cfgC2).map fun s => s.chars).flatten).length ∧
    generateSecurePassword cfgC2 gC2 = ['a', 'a', 'b'] ∧
    ¬ (generateSecurePassword cfgC2 gC2).Chain' (fun a b => a ≠ b) := by
  have hval : generateSecurePassword cfgC2 gC2 = ['a', 'a', 'b'] := by decide
  refine ⟨rfl, by decide, by decide, hval, ?_⟩
  rw [hval]
  intro hch
  exact (List.chain'_cons.mp hch).1 rfl

end Crypto
